import Mathlib

/-!
# Verification of the temi comment threading and navigation core

This file gives a shallow embedding of the comment threading/ordering engine of
the `temi` repository (files `src/comments.rs`, `src/comments/comment.rs`,
`src/screen/post.rs`, `src/main.rs`) and proves or refutes the specification
claims about it.

Modelling conventions:
* Rust `u64`/`usize` values are modelled as `Nat`; all subtractions in the
  source are saturating (`saturating_sub`), matching `Nat` subtraction, except
  where noted.  Arithmetic that panics in Rust (division/modulo by zero,
  underflowing unchecked subtraction) is modelled with `Option`, `none`
  standing for the panic.
* Rust `Vec<T>` is `List T`, `&str`/`String` is `String` (compared through its
  character list, which coincides with Rust's byte-wise `str` ordering since
  UTF-8 preserves codepoint order).
* `Vec::sort` (a stable sort by the `Ord` instance) is modelled by stable
  insertion sort (`List.insertionSort`) over the embedded comparator.
-/

/-! ## Ordering utilities -/

theorem Ordering.then_assoc' (a b c : Ordering) :
    (a.then b).then c = a.then (b.then c) := by
  cases a <;> rfl

theorem Ordering.then_ne_gt {a b : Ordering} :
    a.then b ≠ .gt ↔ a = .lt ∨ (a = .eq ∧ b ≠ .gt) := by
  cases a <;> simp [Ordering.then]

theorem Ordering.eq_of_swap_eq {a b : Ordering} (h : a.swap = b.swap) : a = b := by
  cases a <;> cases b <;> first | rfl | exact absurd h (by decide)

/-- Embedding of `u64::cmp` / `usize::cmp`. -/
def ncmp (a b : Nat) : Ordering :=
  if a < b then .lt else if b < a then .gt else .eq

theorem ncmp_eq_lt {a b : Nat} : ncmp a b = .lt ↔ a < b := by
  unfold ncmp; split_ifs with h1 h2 <;> simp_all

theorem ncmp_eq_gt {a b : Nat} : ncmp a b = .gt ↔ b < a := by
  unfold ncmp
  split_ifs with h1 h2 <;> simp_all
  omega

theorem ncmp_eq_eq {a b : Nat} : ncmp a b = .eq ↔ a = b := by
  unfold ncmp; split_ifs with h1 h2 <;> simp_all <;> omega

theorem ncmp_swap (a b : Nat) : ncmp b a = (ncmp a b).swap := by
  unfold ncmp; split_ifs <;> first | rfl | omega

theorem ncmp_self (a : Nat) : ncmp a a = .eq := ncmp_eq_eq.mpr rfl

/-- Embedding of `Option::<u64>::cmp` (`None` sorts before `Some`). -/
def cmpOpt (x y : Option Nat) : Ordering :=
  match x, y with
  | none, none => .eq
  | none, some _ => .lt
  | some _, none => .gt
  | some a, some b => ncmp a b

theorem cmpOpt_eq_eq {x y : Option Nat} : cmpOpt x y = .eq ↔ x = y := by
  cases x <;> cases y <;> simp only [cmpOpt, ncmp_eq_eq] <;> simp

theorem cmpOpt_swap (x y : Option Nat) : cmpOpt y x = (cmpOpt x y).swap := by
  cases x <;> cases y <;> first | rfl | exact ncmp_swap _ _

theorem cmpOpt_lt_trans {x y z : Option Nat} (h1 : cmpOpt x y = .lt)
    (h2 : cmpOpt y z = .lt) : cmpOpt x z = .lt := by
  cases x <;> cases y <;> cases z <;>
    simp_all only [cmpOpt, ncmp_eq_lt] <;> first | rfl | omega | exact absurd h1 (by decide) | exact absurd h2 (by decide)

/-- Embedding of `str::cmp` on the character lists of two strings (UTF-8
byte-lexicographic, which agrees with codepoint-lexicographic order). -/
def charsCmp : List Char → List Char → Ordering
  | [], [] => .eq
  | [], _ :: _ => .lt
  | _ :: _, [] => .gt
  | a :: as, b :: bs => (ncmp a.toNat b.toNat).then (charsCmp as bs)

theorem charsCmp_nil_nil : charsCmp [] [] = .eq := rfl

theorem charsCmp_nil_cons {b : Char} {bs : List Char} : charsCmp [] (b :: bs) = .lt := rfl

theorem charsCmp_cons_nil {a : Char} {as : List Char} : charsCmp (a :: as) [] = .gt := rfl

theorem charsCmp_cons_cons {a b : Char} {as bs : List Char} :
    charsCmp (a :: as) (b :: bs) = (ncmp a.toNat b.toNat).then (charsCmp as bs) := rfl

theorem charsCmp_eq_eq : ∀ {u v : List Char}, charsCmp u v = .eq ↔ u = v := by
  intro u
  induction u with
  | nil =>
    intro v
    cases v with
    | nil => simp [charsCmp_nil_nil]
    | cons b bs => simp [charsCmp_nil_cons]
  | cons a as ih =>
    intro v
    cases v with
    | nil => simp [charsCmp_cons_nil]
    | cons b bs =>
      rw [charsCmp_cons_cons, Ordering.then_eq_eq, ncmp_eq_eq, ih]
      constructor
      · rintro ⟨h1, h2⟩
        rw [Char.ext (UInt32.ext h1), h2]
      · rintro h
        injection h with h1 h2
        exact ⟨by rw [h1], h2⟩

theorem charsCmp_swap : ∀ (u v : List Char), charsCmp v u = (charsCmp u v).swap := by
  intro u
  induction u with
  | nil => intro v; cases v <;> rfl
  | cons a as ih =>
    intro v
    cases v with
    | nil => rfl
    | cons b bs =>
      rw [charsCmp_cons_cons, charsCmp_cons_cons, Ordering.swap_then, ncmp_swap, ih]

theorem charsCmp_lt_trans : ∀ {u v w : List Char}, charsCmp u v = .lt →
    charsCmp v w = .lt → charsCmp u w = .lt := by
  intro u
  induction u with
  | nil =>
    intro v w h1 h2
    cases v with
    | nil => exact absurd h1 (by rw [charsCmp_nil_nil]; decide)
    | cons b bs =>
      cases w with
      | nil => exact absurd h2 (by rw [charsCmp_cons_nil]; decide)
      | cons c cs => exact charsCmp_nil_cons
  | cons a as ih =>
    intro v w h1 h2
    cases v with
    | nil => exact absurd h1 (by rw [charsCmp_cons_nil]; decide)
    | cons b bs =>
      cases w with
      | nil => exact absurd h2 (by rw [charsCmp_cons_nil]; decide)
      | cons c cs =>
        rw [charsCmp_cons_cons, Ordering.then_eq_lt, ncmp_eq_lt, ncmp_eq_eq] at h1 h2 ⊢
        rcases h1 with h1 | ⟨h1e, h1r⟩
        · rcases h2 with h2 | ⟨h2e, h2r⟩
          · exact Or.inl (h1.trans h2)
          · exact Or.inl (h2e ▸ h1)
        · rcases h2 with h2 | ⟨h2e, h2r⟩
          · exact Or.inl (h1e ▸ h2)
          · exact Or.inr ⟨h1e.trans h2e, ih h1r h2r⟩

/-- Embedding of `str::cmp` on `String`s. -/
def strCmp (s t : String) : Ordering := charsCmp s.data t.data

theorem strCmp_eq_eq {s t : String} : strCmp s t = .eq ↔ s = t := by
  rw [strCmp, charsCmp_eq_eq]
  exact ⟨fun h => by cases s; cases t; simp_all, fun h => by rw [h]⟩

theorem strCmp_swap (s t : String) : strCmp t s = (strCmp s t).swap :=
  charsCmp_swap _ _

theorem strCmp_lt_trans {s t u : String} (h1 : strCmp s t = .lt)
    (h2 : strCmp t u = .lt) : strCmp s u = .lt :=
  charsCmp_lt_trans h1 h2

/-! ## Path codec

`splitOnChar` embeds Rust's `str::split('.')`: splitting on every occurrence of
the separator; an empty input yields a single empty segment. -/

def splitOnChar (c : Char) : List Char → List (List Char)
  | [] => [[]]
  | x :: xs =>
    let r := splitOnChar c xs
    if x = c then [] :: r else (x :: r.headI) :: r.tail

theorem splitOnChar_ne_nil (c : Char) (l : List Char) : splitOnChar c l ≠ [] := by
  cases l with
  | nil => simp [splitOnChar]
  | cons x xs => simp only [splitOnChar]; split <;> simp

theorem splitOnChar_length (c : Char) : ∀ l : List Char,
    (splitOnChar c l).length = l.countP (fun x => x = c) + 1 := by
  intro l
  induction l with
  | nil => simp [splitOnChar]
  | cons x xs ih =>
    rcases h : splitOnChar c xs with _ | ⟨y, ys⟩
    · exact absurd h (splitOnChar_ne_nil c xs)
    · rw [h] at ih
      simp only [splitOnChar, h, List.countP_cons]
      by_cases hx : x = c
      · simp only [if_pos hx, List.length_cons]
        simp_all
      · simp only [if_neg hx, List.headI, List.tail, List.length_cons]
        simp_all

theorem splitOnChar_append (c : Char) : ∀ (a b : List Char),
    splitOnChar c (a ++ c :: b) = splitOnChar c a ++ splitOnChar c b := by
  intro a b
  induction a with
  | nil => simp [splitOnChar]
  | cons x xs ih =>
    rcases h : splitOnChar c xs with _ | ⟨y, ys⟩
    · exact absurd h (splitOnChar_ne_nil c xs)
    · by_cases hx : x = c
      · simp only [List.cons_append, splitOnChar, List.append_eq, if_pos hx, h, ih]
      · simp only [List.cons_append, splitOnChar, List.append_eq, if_neg hx, h, ih]
        simp [List.headI, List.tail]

/-- Embedding of `u64::from_str` (`str::parse::<u64>()`): an optional leading
`+`, then one or more decimal digits, rejecting values that overflow `u64`. -/
def parseU64 (s : List Char) : Option Nat :=
  let digits := if s.head? = some '+' then s.tail else s
  if digits = [] then none
  else if digits.all (fun ch => ch.isDigit) then
    let v := digits.foldl (fun a ch => a * 10 + (ch.toNat - 48)) 0
    if v < 2 ^ 64 then some v else none
  else none

/-- `parse::<u64>().unwrap_or(0)` applied to one path segment. -/
def segVal (s : List Char) : Nat := (parseU64 s).getD 0

/-- The parsed ancestry path:
`path.split('.').map(|c| c.parse::<u64>().unwrap_or(0))` collected to a list. -/
def parsePath (path : String) : List Nat :=
  (splitOnChar '.' path.data).map segVal

theorem parsePath_ne_nil (path : String) : parsePath path ≠ [] := by
  unfold parsePath
  simp only [ne_eq, List.map_eq_nil_iff]
  exact splitOnChar_ne_nil '.' path.data

/-- Embedding of `Iterator::position`. -/
def position (p : Nat → Bool) : List Nat → Option Nat
  | [] => none
  | x :: xs => if p x then some 0 else (position p xs).map (fun i => i + 1)

theorem position_lt_length {p : Nat → Bool} : ∀ {l : List Nat} {i : Nat},
    position p l = some i → i < l.length := by
  intro l
  induction l with
  | nil => intro i h; exact absurd h (by simp [position])
  | cons x xs ih =>
    intro i h
    simp only [position] at h
    split at h
    · cases h; simp
    · rcases Option.map_eq_some'.mp h with ⟨j, hj, rfl⟩
      have := ih hj
      simp only [List.length_cons]
      omega

/-! ## Data model

Full embeddings of the record structures from `src/comments/comment.rs`,
`src/counts.rs`, `src/posts/creator.rs`, `src/posts/post.rs`,
`src/community.rs` and `src/comments.rs`. -/

/-- `Comment` from `src/comments/comment.rs` (`local` is renamed `is_local`
because `local` is a Lean keyword). -/
structure Comment where
  id : Nat
  creator_id : Nat
  post_id : Nat
  content : String
  removed : Bool
  published : String
  deleted : Bool
  ap_id : String
  is_local : Bool
  path : String
  distinguished : Bool
  language_id : Nat
deriving DecidableEq

/-- `Comment::new()`. -/
def Comment.new : Comment :=
  { id := 0, creator_id := 0, post_id := 0, content := "", removed := false,
    published := "", deleted := false, ap_id := "", is_local := false,
    path := "", distinguished := false, language_id := 0 }

/-- `Counts` from `src/counts.rs`. -/
structure Counts where
  id : Option Nat
  post_id : Option Nat
  comment_id : Option Nat
  comments : Option Nat
  score : Int
  upvotes : Nat
  downvotes : Nat
  published : String
  newest_comment_time_necro : Option String
  newest_comment_time : Option String
  featured_community : Option Bool
  featured_local : Option Bool
  hot_rank : Option Nat
  hot_rank_active : Option Nat
  child_count : Option Nat
deriving DecidableEq

/-- `Counts::new()`. -/
def Counts.new : Counts :=
  { id := none, post_id := none, comment_id := none, comments := none,
    score := 0, upvotes := 0, downvotes := 0, published := "",
    newest_comment_time_necro := none, newest_comment_time := none,
    featured_community := none, featured_local := none, hot_rank := none,
    hot_rank_active := none, child_count := none }

/-- `Counts::child_count()`: `self.child_count.unwrap_or(0)`. -/
def Counts.child_count_get (c : Counts) : Nat := c.child_count.getD 0

/-- `Creator` from `src/posts/creator.rs` (`local` renamed `is_local`). -/
structure Creator where
  id : Nat
  name : String
  avatar : Option String
  banned : Bool
  published : String
  actor_id : String
  is_local : Bool
  icon : Option String
  deleted : Bool
  admin : Option Bool
  bot_account : Bool
  instance_id : Nat
deriving DecidableEq

/-- `Creator::new()`. -/
def Creator.new : Creator :=
  { id := 0, name := "", avatar := none, banned := false, published := "",
    actor_id := "", is_local := false, icon := none, deleted := false,
    admin := none, bot_account := false, instance_id := 0 }

/-- `Post` from `src/posts/post.rs`. -/
structure Post where
  id : Nat
  name : String
  url : Option String
  deleted : Bool
  nsfw : Bool
  thumbnail_url : Option String
  ap_id : String
  body : Option String
  sorted : Option Bool
deriving DecidableEq

/-- `Post::new()`. -/
def Post.new : Post :=
  { id := 0, name := "", url := none, deleted := false, nsfw := false,
    thumbnail_url := none, ap_id := "", body := none, sorted := none }

/-- `Community` from `src/community.rs` (`local` renamed `is_local`). -/
structure Community where
  id : Nat
  name : String
  title : String
  description : Option String
  removed : Bool
  published : String
  updated : Option String
  deleted : Bool
  nsfw : Bool
  actor_id : String
  is_local : Bool
  icon : Option String
  hidden : Bool
  posting_restricted_to_mods : Bool
  instance_id : Nat
deriving DecidableEq

/-- `Community::new()`. -/
def Community.new : Community :=
  { id := 0, name := "", title := "", description := none, removed := false,
    published := "", updated := none, deleted := false, nsfw := false,
    actor_id := "", is_local := false, icon := none, hidden := false,
    posting_restricted_to_mods := false, instance_id := 0 }

/-- `CommentResponse` from `src/comments.rs`. -/
structure CommentResponse where
  comment : Comment
  creator : Creator
  post : Post
  community : Community
  counts : Counts
  creator_banned_from_community : Bool
  subscribed : String
  saved : Bool
  creator_blocked : Bool
  level : Option Nat
deriving DecidableEq

/-- `CommentResponse::new()`. -/
def CommentResponse.new : CommentResponse :=
  { comment := Comment.new, creator := Creator.new, post := Post.new,
    community := Community.new, counts := Counts.new,
    creator_banned_from_community := false, subscribed := "", saved := false,
    creator_blocked := false, level := none }

/-- `tui::widgets::TableState`: a scroll offset plus an optional selected
index; `select(None)` also resets the offset. -/
structure TableState where
  offset : Nat
  selected : Option Nat
deriving DecidableEq

/-- `TableState::default()`. -/
def TableState.default : TableState := { offset := 0, selected := none }

/-- `TableState::select`. -/
def TableState.select (s : TableState) (index : Option Nat) : TableState :=
  { selected := index, offset := match index with | none => 0 | some _ => s.offset }

/-- `tui::widgets::ListState` (same shape and `select` behaviour as
`TableState`). -/
structure ListState where
  offset : Nat
  selected : Option Nat
deriving DecidableEq

/-- `ListState::default()`. -/
def ListState.default : ListState := { offset := 0, selected := none }

/-- `ListState::select`. -/
def ListState.select (s : ListState) (index : Option Nat) : ListState :=
  { selected := index, offset := match index with | none => 0 | some _ => s.offset }

/-! ## The comparator (`impl PartialOrd for CommentResponse`, comments.rs:103-172)

`PartialOrd::partial_cmp` always returns `Some`, and `Ord::cmp` unwraps it, so
the embedded `cmpCR` is the comparator used by `sort_comments`. -/

/-- Embedding of `CommentResponse::partial_cmp` / `::cmp`. -/
def cmpCR (self rhs : CommentResponse) : Ordering :=
  let self_id := self.comment.id
  let self_pos :=
    (position (fun c => c == self_id) (parsePath self.comment.path)).getD 0
  let self_root := (parsePath self.comment.path).get? 1
  let rhs_id := rhs.comment.id
  let rhs_pos :=
    (position (fun c => c == rhs_id) (parsePath rhs.comment.path)).getD 0
  let rhs_root := (parsePath rhs.comment.path).get? 1
  let level := min (self_pos - 1) (rhs_pos - 1)
  let ancestor_ord :=
    ((((parsePath self.comment.path).drop 2).take (level - 2)).zip
        (((parsePath rhs.comment.path).drop 2).take (level - 2))).foldl
      (fun acc sr => acc.then (ncmp sr.1 sr.2)) (cmpOpt self_root rhs_root)
  let self_child := self.counts.child_count_get
  let rhs_child := rhs.counts.child_count_get
  (((ancestor_ord.then (ncmp self_pos rhs_pos)).then
      (ncmp self_child rhs_child)).then (ncmp self_id rhs_id)).then
    (strCmp self.comment.published rhs.comment.published)

/-- `a <= b` under the comparator: used by the stable sort. -/
def leR (a b : CommentResponse) : Prop := cmpCR a b ≠ .gt

instance : DecidableRel leR := fun a b => by
  unfold leR; infer_instance

/-! ## `CommentResponseTable` (comments.rs:221-371) -/

/-- `CommentResponseTable` from `src/comments.rs`. -/
structure CommentResponseTable where
  items : List CommentResponse
  comment_id : Nat
  page : Nat
  level : Nat
  state : TableState
deriving DecidableEq

/-- `CommentResponseTable::new`. -/
def CommentResponseTable.new (items : List CommentResponse) : CommentResponseTable :=
  { items := items, comment_id := 0, page := 1, level := 0,
    state := TableState.default }

/-- `CommentResponseTable::next_level`: `self.level += 1` (the returned value
is the new level; we return the updated table). -/
def CommentResponseTable.next_level (t : CommentResponseTable) : CommentResponseTable :=
  { t with level := t.level + 1 }

/-- `CommentResponseTable::previous_level`: saturating decrement. -/
def CommentResponseTable.previous_level (t : CommentResponseTable) : CommentResponseTable :=
  { t with level := t.level - 1 }

/-- `CommentResponseTable::current`. -/
def CommentResponseTable.current (t : CommentResponseTable) : Option CommentResponse :=
  match t.state.selected with
  | some i => t.items.get? i
  | none => none

/-- `CommentResponseTable::parent_id` (comments.rs:305-319): looks up the item
whose comment id equals `comment_id` and reads path segment
`level.saturating_add(1)`, with `"0"` / parse-failure fallbacks. -/
def CommentResponseTable.parent_id (t : CommentResponseTable) : Nat :=
  ((t.items.find? (fun c => c.comment.id == t.comment_id)).map (fun c =>
      (parseU64 (((splitOnChar '.' c.comment.path.data).get? (t.level + 1)).getD
        ['0'])).getD 0)).getD 0

/-- `CommentResponseTable::go_to_parent` (comments.rs:300-303): decrement the
level (saturating), then recompute `comment_id` with the new level. -/
def CommentResponseTable.go_to_parent (t : CommentResponseTable) : CommentResponseTable :=
  let t1 := { t with level := t.level - 1 }
  { t1 with comment_id := t1.parent_id }

/-- `CommentResponseTable::deselect`. -/
def CommentResponseTable.deselect (t : CommentResponseTable) : CommentResponseTable :=
  { t with state := t.state.select none }

/-- `CommentResponseTable::next` (comments.rs:327-331).  The update
`self.state.selected().map(|i| (i + 1) % len).unwrap_or(0)` divides by
`len` with no emptiness guard: when `items` is empty and a selection is set,
`(i + 1) % 0` panics (modelled as `none`). -/
def CommentResponseTable.next (t : CommentResponseTable) : Option CommentResponseTable :=
  let len := t.items.length
  match t.state.selected with
  | some i =>
    if len = 0 then none
    else some { t with state := t.state.select (some ((i + 1) % len)) }
  | none => some { t with state := t.state.select (some 0) }

/-- `CommentResponseTable::previous` (comments.rs:334-343): total, it uses
`saturating_sub` throughout. -/
def CommentResponseTable.previous (t : CommentResponseTable) : CommentResponseTable :=
  let len := t.items.length
  let last := len - 1
  let i :=
    match t.state.selected with
    | some i => if i = 0 then last else i - 1
    | none => last
  { t with state := t.state.select (some i) }

/-- `CommentResponseTable::sort_comments` (comments.rs:359-370):
`self.items.sort()`.  Rust's `Vec::sort` is a stable sort by `Ord::cmp`;
it is modelled by stable insertion sort with the embedded comparator. -/
def sort_comments (items : List CommentResponse) : List CommentResponse :=
  List.insertionSort leR items

/-! ## `CommentList` (src/comments/comment.rs:92-162) -/

/-- `CommentList` from `src/comments/comment.rs`. -/
structure CommentList where
  items : List Comment
  state : ListState
deriving DecidableEq

/-- `CommentList::new`. -/
def CommentList.new (items : List Comment) : CommentList :=
  { items := items, state := ListState.default }

/-- `CommentList::previous` (comment.rs:147-161).  `let last = len - 1;` is an
unchecked subtraction evaluated before the match: on an empty list it
underflows (a panic in debug builds, a wrap to `usize::MAX` in release
builds); the underflow is modelled as `none`. -/
def CommentList.previous (t : CommentList) : Option CommentList :=
  let len := t.items.length
  if len = 0 then none
  else
    let last := len - 1
    let i :=
      match t.state.selected with
      | some i => if i = 0 then last else i - 1
      | none => last
    some { t with state := t.state.select (some i) }

/-! ## Spec-modelled navigation (`enter_child` / `ancestor_at`)

The spec's `enter_child()` operation has no implementation under `src/`
(only `next_level` and `go_to_parent` exist), so it is modelled from the
spec's words. -/

/-- Modelled from the spec: `ancestor_at(path, level) -> u64`:
`parse(path).get(level+1)`, default 0 (spec section 4.1). -/
def ancestor_at (path : String) (level : Nat) : Nat :=
  ((parsePath path).get? (level + 1)).getD 0

/-- Modelled from the spec: `enter_child()` "increments `current_level`, sets
`focal_parent_id` to the identifier of the currently selected record at the
new level, as determined by `ancestor_at(selected.path, current_level+1)`"
(spec section 4.3); the level increment is the source's `next_level`.  When
nothing is selected the focal id is left unchanged. -/
def CommentResponseTable.enter_child (t : CommentResponseTable) : CommentResponseTable :=
  let t1 := t.next_level
  { t1 with
    comment_id :=
      match t1.current with
      | some c => ancestor_at c.comment.path t1.level
      | none => t1.comment_id }

/-! ## Depth derivation (src/screen/post.rs:129-130) and page fetching
(src/main.rs:50-74) -/

/-- The depth used for comment indentation in `draw_post_screen`:
`cr.comment.path.split('.').count().saturating_sub(2)`. -/
def depthOf (path : String) : Nat :=
  (splitOnChar '.' path.data).length - 2

/-- The sequence of comment pages requested by the fetch loop in `main`:
pages `1 ..= num_comments / 50`, plus one further page when
`num_comments % 50 > 0`. -/
def pagesRequested (num_comments : Nat) : List Nat :=
  ((List.range (num_comments / 50)).map (fun page => page + 1)) ++
    (if num_comments % 50 > 0 then [num_comments / 50 + 1] else [])

/-- The merged comment collection: the pages are fetched in the order given by
`pagesRequested` and appended (`Vec::append`) in that order. -/
def fetchMerged (fetch : Nat → List CommentResponse) (num_comments : Nat) :
    List CommentResponse :=
  (pagesRequested num_comments).bind fetch

/-! ## Comparator theory

`cmpCR` is rewritten into a lexicographic normal form over a per-record sort
key, from which it is shown to be a total preorder: the chain comparison in
the source compares exactly the common-length truncations of the two records'
"own chains", whose lengths are monotone in the records' `pos` values, so
prefix comparison followed by the `pos` comparison behaves like a
lexicographic order. -/

/-- Compare two lists element-wise over their common length only. -/
def prefCmp : List Nat → List Nat → Ordering
  | a :: as, b :: bs => (ncmp a b).then (prefCmp as bs)
  | _, _ => .eq

theorem prefCmp_nil_left {v : List Nat} : prefCmp [] v = .eq := by
  cases v <;> rfl

theorem prefCmp_nil_right {u : List Nat} : prefCmp u [] = .eq := by
  cases u <;> rfl

theorem prefCmp_cons_cons {a b : Nat} {as bs : List Nat} :
    prefCmp (a :: as) (b :: bs) = (ncmp a b).then (prefCmp as bs) := rfl

theorem then_foldl_ncmp (l : List (Nat × Nat)) : ∀ init : Ordering,
    l.foldl (fun acc sr => acc.then (ncmp sr.1 sr.2)) init =
      init.then (l.foldl (fun acc sr => acc.then (ncmp sr.1 sr.2)) .eq) := by
  induction l with
  | nil => intro init; cases init <;> rfl
  | cons p l ih =>
    intro init
    rw [List.foldl_cons, ih (init.then (ncmp p.1 p.2)), List.foldl_cons,
      ih (Ordering.eq.then (ncmp p.1 p.2)), Ordering.then_assoc']
    rfl

theorem zip_foldl_eq_prefCmp : ∀ (u v : List Nat),
    (u.zip v).foldl (fun acc sr => acc.then (ncmp sr.1 sr.2)) .eq = prefCmp u v := by
  intro u
  induction u with
  | nil => intro v; simp [prefCmp_nil_left]
  | cons a as ih =>
    intro v
    cases v with
    | nil => rw [List.zip_nil_right, List.foldl_nil, prefCmp_nil_right]
    | cons b bs =>
      rw [List.zip_cons_cons, List.foldl_cons, prefCmp_cons_cons, ← ih bs,
        then_foldl_ncmp]
      rfl

theorem prefCmp_swap : ∀ (u v : List Nat), prefCmp v u = (prefCmp u v).swap := by
  intro u
  induction u with
  | nil => intro v; rw [prefCmp_nil_left, prefCmp_nil_right]; rfl
  | cons a as ih =>
    intro v
    cases v with
    | nil => rw [prefCmp_nil_left, prefCmp_nil_right]; rfl
    | cons b bs =>
      rw [prefCmp_cons_cons, prefCmp_cons_cons, Ordering.swap_then, ncmp_swap, ih]

theorem prefCmp_take_take : ∀ (u v : List Nat) (s t : Nat),
    prefCmp (u.take s) (v.take t) =
      prefCmp (u.take (min s t)) (v.take (min s t)) := by
  intro u
  induction u with
  | nil => intro v s t; simp [prefCmp_nil_left]
  | cons a as ih =>
    intro v s t
    cases v with
    | nil => simp [prefCmp_nil_right]
    | cons b bs =>
      cases s with
      | zero => simp [prefCmp_nil_left]
      | succ s =>
        cases t with
        | zero => simp [prefCmp_nil_right, prefCmp_nil_left]
        | succ t =>
          rw [List.take_succ_cons, List.take_succ_cons, prefCmp_cons_cons,
            Nat.succ_min_succ, List.take_succ_cons, List.take_succ_cons,
            prefCmp_cons_cons, ih bs s t]

theorem prefCmp_take_self : ∀ (v : List Nat) (k : Nat), prefCmp (v.take k) v = .eq := by
  intro v
  induction v with
  | nil => intro k; exact prefCmp_nil_right
  | cons b bs ih =>
    intro k
    cases k with
    | zero => exact prefCmp_nil_left
    | succ k =>
      rw [List.take_succ_cons, prefCmp_cons_cons, ncmp_self, ih k]
      rfl

theorem prefCmp_lt_trans : ∀ {u v w : List Nat}, prefCmp u v = .lt →
    prefCmp v w = .lt → prefCmp u w = .lt := by
  intro u
  induction u with
  | nil => intro v w h1 _; exact absurd h1 (by rw [prefCmp_nil_left]; decide)
  | cons a as ih =>
    intro v w h1 h2
    cases v with
    | nil => exact absurd h1 (by rw [prefCmp_nil_right]; decide)
    | cons b bs =>
      cases w with
      | nil => exact absurd h2 (by rw [prefCmp_nil_right]; decide)
      | cons c cs =>
        rw [prefCmp_cons_cons, Ordering.then_eq_lt, ncmp_eq_lt, ncmp_eq_eq] at h1 h2 ⊢
        rcases h1 with h1 | ⟨h1e, h1r⟩
        · rcases h2 with h2 | ⟨h2e, h2r⟩
          · exact Or.inl (h1.trans h2)
          · exact Or.inl (h2e ▸ h1)
        · rcases h2 with h2 | ⟨h2e, h2r⟩
          · exact Or.inl (h1e ▸ h2)
          · exact Or.inr ⟨h1e.trans h2e, ih h1r h2r⟩

theorem prefCmp_lt_eq_trans : ∀ {u v w : List Nat}, prefCmp u v = .lt →
    prefCmp v w = .eq → v.length ≤ w.length → prefCmp u w = .lt := by
  intro u
  induction u with
  | nil => intro v w h1 _ _; exact absurd h1 (by rw [prefCmp_nil_left]; decide)
  | cons a as ih =>
    intro v w h1 h2 hlen
    cases v with
    | nil => exact absurd h1 (by rw [prefCmp_nil_right]; decide)
    | cons b bs =>
      cases w with
      | nil => simp at hlen
      | cons c cs =>
        rw [prefCmp_cons_cons, Ordering.then_eq_lt, ncmp_eq_lt, ncmp_eq_eq] at h1 ⊢
        rw [prefCmp_cons_cons, Ordering.then_eq_eq, ncmp_eq_eq] at h2
        obtain ⟨rfl, h2r⟩ := h2
        simp only [List.length_cons, Nat.succ_le_succ_iff] at hlen
        rcases h1 with h1 | ⟨h1e, h1r⟩
        · exact Or.inl h1
        · exact Or.inr ⟨h1e, ih h1r h2r hlen⟩

theorem prefCmp_eq_lt_trans : ∀ {u v w : List Nat}, prefCmp u v = .eq →
    u.length ≤ v.length → prefCmp v w = .lt →
    prefCmp u w = .lt ∨ (prefCmp u w = .eq ∧ u.length < w.length) := by
  intro u
  induction u with
  | nil =>
    intro v w _ _ h3
    cases w with
    | nil => exact absurd h3 (by rw [prefCmp_nil_right]; decide)
    | cons c cs => exact Or.inr ⟨prefCmp_nil_left, by simp⟩
  | cons a as ih =>
    intro v w h1 hlen h3
    cases v with
    | nil => simp at hlen
    | cons b bs =>
      cases w with
      | nil => exact absurd h3 (by rw [prefCmp_nil_right]; decide)
      | cons c cs =>
        rw [prefCmp_cons_cons, Ordering.then_eq_eq, ncmp_eq_eq] at h1
        obtain ⟨rfl, h1r⟩ := h1
        simp only [List.length_cons, Nat.succ_le_succ_iff] at hlen
        rw [prefCmp_cons_cons, Ordering.then_eq_lt, ncmp_eq_lt, ncmp_eq_eq] at h3
        rcases h3 with h3 | ⟨h3e, h3r⟩
        · rw [prefCmp_cons_cons, Ordering.then_eq_lt, ncmp_eq_lt]
          exact Or.inl (Or.inl h3)
        · rcases ih h1r hlen h3r with hlt | ⟨heq, hlt⟩
          · rw [prefCmp_cons_cons, Ordering.then_eq_lt, ncmp_eq_lt, ncmp_eq_eq]
            exact Or.inl (Or.inr ⟨h3e, hlt⟩)
          · rw [prefCmp_cons_cons, Ordering.then_eq_eq, ncmp_eq_eq]
            exact Or.inr ⟨⟨h3e, heq⟩, by simpa using Nat.succ_lt_succ hlt⟩

theorem prefCmp_eq_eq_trans : ∀ {u v w : List Nat}, prefCmp u v = .eq →
    u.length ≤ v.length → prefCmp v w = .eq → v.length ≤ w.length →
    prefCmp u w = .eq := by
  intro u
  induction u with
  | nil => intro v w _ _ _ _; exact prefCmp_nil_left
  | cons a as ih =>
    intro v w h1 hlen1 h2 hlen2
    cases v with
    | nil => simp at hlen1
    | cons b bs =>
      cases w with
      | nil => simp at hlen2
      | cons c cs =>
        rw [prefCmp_cons_cons, Ordering.then_eq_eq, ncmp_eq_eq] at h1 h2 ⊢
        obtain ⟨rfl, h1r⟩ := h1
        obtain ⟨rfl, h2r⟩ := h2
        simp only [List.length_cons, Nat.succ_le_succ_iff] at hlen1 hlen2
        exact ⟨rfl, ih h1r hlen1 h2r hlen2⟩

/-- The sort key of a record: its root id (path index 1), its truncated
ancestor chain (path indices `2 ..` limited to `pos - 3` elements), its `pos`
(first index of its own id in the parsed path, default 0), its child count,
its id and its published timestamp. -/
structure SortKey where
  root : Option Nat
  chain : List Nat
  pos : Nat
  child : Nat
  cid : Nat
  pub : String

/-- `posOf c` is the `self_pos` computed by the comparator. -/
def posOf (c : CommentResponse) : Nat :=
  (position (fun v => v == c.comment.id) (parsePath c.comment.path)).getD 0

/-- The truncated own chain of a record. -/
def uChain (c : CommentResponse) : List Nat :=
  ((parsePath c.comment.path).drop 2).take (posOf c - 3)

/-- The sort key of a record. -/
def keyOf (c : CommentResponse) : SortKey :=
  { root := (parsePath c.comment.path).get? 1, chain := uChain c,
    pos := posOf c, child := c.counts.child_count_get, cid := c.comment.id,
    pub := c.comment.published }

/-- Lexicographic comparison of sort keys. -/
def keyCmp (x y : SortKey) : Ordering :=
  (cmpOpt x.root y.root).then ((prefCmp x.chain y.chain).then
    ((ncmp x.pos y.pos).then ((ncmp x.child y.child).then
      ((ncmp x.cid y.cid).then (strCmp x.pub y.pub)))))

/-- The invariant tying chain length to `pos`; it holds for every `keyOf`. -/
def KeyInv (k : SortKey) : Prop := k.chain.length = k.pos - 3

theorem keyOf_inv (c : CommentResponse) : KeyInv (keyOf c) := by
  unfold KeyInv keyOf uChain
  simp only [List.length_take, List.length_drop]
  rcases h : position (fun v => v == c.comment.id) (parsePath c.comment.path) with _ | i
  · simp [posOf, h]
  · have hi : i < (parsePath c.comment.path).length := position_lt_length h
    simp only [posOf, h, Option.getD_some]
    omega

theorem cmpCR_eq_keyCmp (a b : CommentResponse) :
    cmpCR a b = keyCmp (keyOf a) (keyOf b) := by
  have harith : min (posOf a - 1) (posOf b - 1) - 2 = min (posOf a - 3) (posOf b - 3) := by
    rcases Nat.le_total (posOf a) (posOf b) with h | h
    · rw [min_eq_left (by omega), min_eq_left (by omega)]; omega
    · rw [min_eq_right (by omega), min_eq_right (by omega)]; omega
  unfold keyCmp keyOf uChain
  simp only [cmpCR]
  rw [then_foldl_ncmp, zip_foldl_eq_prefCmp,
    show (position (fun v => v == a.comment.id) (parsePath a.comment.path)).getD 0 = posOf a from rfl,
    show (position (fun v => v == b.comment.id) (parsePath b.comment.path)).getD 0 = posOf b from rfl,
    harith, ← prefCmp_take_take]
  simp only [Ordering.then_assoc']

theorem keyCmp_swap (x y : SortKey) : keyCmp y x = (keyCmp x y).swap := by
  unfold keyCmp
  rw [cmpOpt_swap x.root y.root, prefCmp_swap x.chain y.chain,
    ncmp_swap x.pos y.pos, ncmp_swap x.child y.child, ncmp_swap x.cid y.cid,
    strCmp_swap x.pub y.pub]
  simp only [← Ordering.swap_then]

theorem cmpCR_swap (a b : CommentResponse) : cmpCR b a = (cmpCR a b).swap := by
  rw [cmpCR_eq_keyCmp, cmpCR_eq_keyCmp, keyCmp_swap]

theorem ncmp_then_ne_gt {a b : Nat} {o : Ordering} :
    (ncmp a b).then o ≠ .gt ↔ a < b ∨ (a = b ∧ o ≠ .gt) := by
  rw [Ordering.then_ne_gt, ncmp_eq_lt, ncmp_eq_eq]

theorem strCmp_ne_gt {s t : String} : strCmp s t ≠ .gt ↔ strCmp s t = .lt ∨ s = t := by
  constructor
  · intro h
    rcases he : strCmp s t with _ | _ | _
    · exact Or.inl rfl
    · exact Or.inr (strCmp_eq_eq.mp he)
    · exact absurd he h
  · rintro (h | rfl)
    · rw [h]; decide
    · rw [strCmp_eq_eq.mpr rfl]; decide

/-- Transitivity of the child-count/id/published tail of the comparator. -/
theorem tail_trans {c1 c2 c3 i1 i2 i3 : Nat} {s1 s2 s3 : String}
    (h1 : (ncmp c1 c2).then ((ncmp i1 i2).then (strCmp s1 s2)) ≠ .gt)
    (h2 : (ncmp c2 c3).then ((ncmp i2 i3).then (strCmp s2 s3)) ≠ .gt) :
    (ncmp c1 c3).then ((ncmp i1 i3).then (strCmp s1 s3)) ≠ .gt := by
  rw [ncmp_then_ne_gt, ncmp_then_ne_gt, strCmp_ne_gt] at h1 h2 ⊢
  rcases h1 with h1 | ⟨e1, h1⟩
  · left
    rcases h2 with h2 | ⟨e2, _⟩ <;> omega
  · rcases h2 with h2 | ⟨e2, h2⟩
    · left; omega
    · right
      refine ⟨by omega, ?_⟩
      rcases h1 with h1 | ⟨e1i, h1s⟩
      · left
        rcases h2 with h2 | ⟨e2i, _⟩ <;> omega
      · rcases h2 with h2 | ⟨e2i, h2s⟩
        · left; omega
        · right
          refine ⟨by omega, ?_⟩
          rcases h1s with h1s | rfl
          · rcases h2s with h2s | rfl
            · exact Or.inl (strCmp_lt_trans h1s h2s)
            · exact Or.inl h1s
          · rcases h2s with h2s | rfl
            · exact Or.inl h2s
            · exact Or.inr rfl

/-- Transitivity of the chain-then-pos layer, given the length invariant. -/
theorem prefpos_trans {u1 u2 u3 : List Nat} {p1 p2 p3 : Nat} {o1 o2 o3 : Ordering}
    (hl1 : u1.length = p1 - 3) (hl2 : u2.length = p2 - 3) (hl3 : u3.length = p3 - 3)
    (ho : o1 ≠ .gt → o2 ≠ .gt → o3 ≠ .gt)
    (h1 : (prefCmp u1 u2).then ((ncmp p1 p2).then o1) ≠ .gt)
    (h2 : (prefCmp u2 u3).then ((ncmp p2 p3).then o2) ≠ .gt) :
    (prefCmp u1 u3).then ((ncmp p1 p3).then o3) ≠ .gt := by
  rw [Ordering.then_ne_gt] at h1 h2 ⊢
  rcases h1 with h1 | ⟨h1e, h1r⟩
  · rcases h2 with h2 | ⟨h2e, h2r⟩
    · exact Or.inl (prefCmp_lt_trans h1 h2)
    · rw [ncmp_then_ne_gt] at h2r
      have hlen : u2.length ≤ u3.length := by
        rcases h2r with h | ⟨h, _⟩ <;> omega
      exact Or.inl (prefCmp_lt_eq_trans h1 h2e hlen)
  · rw [ncmp_then_ne_gt] at h1r
    have hlen12 : u1.length ≤ u2.length := by
      rcases h1r with h | ⟨h, _⟩ <;> omega
    rcases h2 with h2 | ⟨h2e, h2r⟩
    · rcases prefCmp_eq_lt_trans h1e hlen12 h2 with hlt | ⟨heq, hlt⟩
      · exact Or.inl hlt
      · right
        refine ⟨heq, ?_⟩
        rw [ncmp_then_ne_gt]
        left
        omega
    · rw [ncmp_then_ne_gt] at h2r
      have hlen23 : u2.length ≤ u3.length := by
        rcases h2r with h | ⟨h, _⟩ <;> omega
      right
      refine ⟨prefCmp_eq_eq_trans h1e hlen12 h2e hlen23, ?_⟩
      rw [ncmp_then_ne_gt]
      rcases h1r with h1p | ⟨h1p, h1o⟩
      · left
        rcases h2r with h2p | ⟨h2p, _⟩ <;> omega
      · rcases h2r with h2p | ⟨h2p, h2o⟩
        · left; omega
        · right
          exact ⟨by omega, ho h1o h2o⟩

/-- Transitivity of `keyCmp` (as a `≤` relation) under the length invariant. -/
theorem keyCmp_le_trans {x y z : SortKey} (hx : KeyInv x) (hy : KeyInv y)
    (hz : KeyInv z) (h1 : keyCmp x y ≠ .gt) (h2 : keyCmp y z ≠ .gt) :
    keyCmp x z ≠ .gt := by
  unfold KeyInv at hx hy hz
  unfold keyCmp at h1 h2 ⊢
  rw [Ordering.then_ne_gt] at h1 h2 ⊢
  rcases h1 with h1 | ⟨h1e, h1r⟩
  · rcases h2 with h2 | ⟨h2e, h2r⟩
    · exact Or.inl (cmpOpt_lt_trans h1 h2)
    · rw [← cmpOpt_eq_eq.mp h2e]
      exact Or.inl h1
  · rcases h2 with h2 | ⟨h2e, h2r⟩
    · rw [cmpOpt_eq_eq.mp h1e]
      exact Or.inl h2
    · right
      refine ⟨by rw [cmpOpt_eq_eq.mp h1e, cmpOpt_eq_eq.mp h2e]; exact cmpOpt_eq_eq.mpr rfl, ?_⟩
      exact prefpos_trans hx hy hz tail_trans h1r h2r

theorem cmpCR_le_trans (a b c : CommentResponse) (h1 : leR a b) (h2 : leR b c) :
    leR a c := by
  unfold leR at h1 h2 ⊢
  rw [cmpCR_eq_keyCmp] at h1 h2 ⊢
  exact keyCmp_le_trans (keyOf_inv a) (keyOf_inv b) (keyOf_inv c) h1 h2

theorem cmpCR_le_total (a b : CommentResponse) : leR a b ∨ leR b a := by
  unfold leR
  rcases h : cmpCR a b with _ | _ | _
  · left; simp [h]
  · left; simp [h]
  · right
    rw [cmpCR_swap, h]
    decide

/-- Mutual `≤` means the comparator ties. -/
theorem cmpCR_eq_of_le_le {a b : CommentResponse} (h1 : leR a b) (h2 : leR b a) :
    cmpCR a b = .eq := by
  unfold leR at h1 h2
  rw [cmpCR_swap] at h2
  rcases h : cmpCR a b with _ | _ | _
  · rw [h] at h2; exact absurd rfl h2
  · rfl
  · exact absurd h h1

instance : IsTrans CommentResponse leR := ⟨cmpCR_le_trans⟩

instance : IsTotal CommentResponse leR := ⟨cmpCR_le_total⟩

/-! ## Sortedness infrastructure -/

theorem cmpCR_refl (a : CommentResponse) : cmpCR a a = .eq := by
  have h := cmpCR_swap a a
  rcases hc : cmpCR a a with _ | _ | _
  · rw [hc] at h; exact absurd h (by decide)
  · rfl
  · rw [hc] at h; exact absurd h (by decide)

theorem leR_refl (a : CommentResponse) : leR a a := by
  unfold leR; rw [cmpCR_refl]; decide

/-- Sorted permutations of the same list agree when no two distinct elements
tie under the comparator. -/
theorem sorted_perm_unique : ∀ {l1 l2 : List CommentResponse}, l1.Perm l2 →
    List.Sorted leR l1 → List.Sorted leR l2 →
    (∀ a ∈ l1, ∀ b ∈ l1, cmpCR a b = .eq → a = b) → l1 = l2 := by
  intro l1
  induction l1 with
  | nil =>
    intro l2 hp _ _ _
    exact (hp.symm.eq_nil).symm
  | cons a t1 ih =>
    intro l2 hp hs1 hs2 hanti
    cases l2 with
    | nil => exact absurd hp.eq_nil (by simp)
    | cons b t2 =>
      have hmem_ba : b ∈ a :: t1 := hp.symm.subset (List.mem_cons_self b t2)
      have hmem_ab : a ∈ b :: t2 := hp.subset (List.mem_cons_self a t1)
      have hle_ab : leR a b := by
        rcases List.mem_cons.mp hmem_ba with hba | hbt1
        · rw [hba]; exact leR_refl a
        · exact (List.rel_of_sorted_cons hs1) b hbt1
      have hle_ba : leR b a := by
        rcases List.mem_cons.mp hmem_ab with hab | hat2
        · rw [hab]; exact leR_refl b
        · exact (List.rel_of_sorted_cons hs2) a hat2
      have hab : a = b := by
        apply hanti a (List.mem_cons_self a t1) b hmem_ba
        exact cmpCR_eq_of_le_le hle_ab hle_ba
      subst hab
      have htail : t1.Perm t2 := hp.cons_inv
      have : t1 = t2 := by
        apply ih htail hs1.of_cons hs2.of_cons
        intro x hx y hy hxy
        exact hanti x (List.mem_cons_of_mem a hx) y (List.mem_cons_of_mem a hy) hxy
      rw [this]

/-! ## Well-formedness of ancestry paths -/

/-- The claim's well-formedness of a record's ancestry path: every
dot-separated segment is numeric (parses as `u64`), and the last segment
parses to the record's id. -/
def pathWF (c : CommentResponse) : Prop :=
  (∀ seg ∈ splitOnChar '.' c.comment.path.data, (parseU64 seg).isSome = true) ∧
  (splitOnChar '.' c.comment.path.data).getLast?.bind parseU64 = some c.comment.id

instance (c : CommentResponse) : Decidable (pathWF c) := by
  unfold pathWF; infer_instance

/-- The record's id first occurs in its parsed path at the final index. -/
def idFirstAtLast (c : CommentResponse) : Prop :=
  position (fun v => v == c.comment.id) (parsePath c.comment.path) =
    some ((parsePath c.comment.path).length - 1)

instance (c : CommentResponse) : Decidable (idFirstAtLast c) := by
  unfold idFirstAtLast; infer_instance

theorem posOf_of_idFirstAtLast {c : CommentResponse} (h : idFirstAtLast c) :
    posOf c = (parsePath c.comment.path).length - 1 := by
  unfold posOf
  rw [h]
  rfl

/-- Core ordering fact: if `b`'s ancestry path extends `a`'s at a dot
boundary and both records' ids first occur at the ends of their parsed
paths, the comparator puts `a` strictly before `b`. -/
theorem cmpCR_lt_of_path_extension {a b : CommentResponse}
    (ha : posOf a = (parsePath a.comment.path).length - 1)
    (hb : posOf b = (parsePath b.comment.path).length - 1)
    (rest : List Char)
    (hr : b.comment.path.data = a.comment.path.data ++ '.' :: rest) :
    cmpCR a b = .lt := by
  have hpb : parsePath b.comment.path =
      parsePath a.comment.path ++ (splitOnChar '.' rest).map segVal := by
    unfold parsePath
    rw [hr, splitOnChar_append, List.map_append]
  have hsl : 1 ≤ ((splitOnChar '.' rest).map segVal).length := by
    rcases h : splitOnChar '.' rest with _ | ⟨y, ys⟩
    · exact absurd h (splitOnChar_ne_nil '.' rest)
    · simp
  have hpal : 1 ≤ (parsePath a.comment.path).length :=
    List.length_pos.mpr (parsePath_ne_nil a.comment.path)
  have hlb : (parsePath b.comment.path).length =
      (parsePath a.comment.path).length + ((splitOnChar '.' rest).map segVal).length := by
    rw [hpb, List.length_append]
  rw [cmpCR_eq_keyCmp]
  simp only [keyCmp, keyOf]
  by_cases h2 : 2 ≤ (parsePath a.comment.path).length
  · -- root ids agree, the chains are prefix-equal, and `pos` decides.
    have hc1 : cmpOpt ((parsePath a.comment.path).get? 1)
        ((parsePath b.comment.path).get? 1) = .eq := by
      rw [hpb, List.get?_append (by omega)]
      exact cmpOpt_eq_eq.mpr rfl
    have hua : uChain a = (uChain b).take ((parsePath a.comment.path).length - 4) := by
      unfold uChain
      rw [ha, hb, hlb, hpb,
        List.drop_append_of_le_length (by omega),
        List.take_take, min_eq_left (by omega),
        List.take_append_of_le_length (by rw [List.length_drop]; omega)]
      rfl
    have hchain : prefCmp (uChain a) (uChain b) = .eq := by
      rw [hua]
      exact prefCmp_take_self _ _
    have hpos : ncmp (posOf a) (posOf b) = .lt := by
      rw [ha, hb, hlb, ncmp_eq_lt]
      omega
    rw [hc1, hchain, hpos]
    rfl
  · -- `a`'s parsed path has a single element: its root is `None`, `b`'s is
    -- `Some`, and `None` sorts strictly first.
    have hget1a : (parsePath a.comment.path).get? 1 = none :=
      List.get?_eq_none.mpr (by omega)
    rcases hget1b : (parsePath b.comment.path).get? 1 with _ | v
    · rw [List.get?_eq_none] at hget1b
      omega
    · rw [hget1a]
      rfl

/-! ## Concrete records and states for witnesses and counterexamples -/

/-- Top-level comment `5` with path `0.5`. -/
def crA5 : CommentResponse :=
  { CommentResponse.new with comment := { Comment.new with id := 5, path := "0.5" } }

/-- Reply `6` to comment `5`, path `0.5.6`. -/
def crB6 : CommentResponse :=
  { CommentResponse.new with comment := { Comment.new with id := 6, path := "0.5.6" } }

/-- Comment `5` whose path `0.9.5` also holds a descendant id. -/
def crP : CommentResponse :=
  { CommentResponse.new with comment := { Comment.new with id := 5, path := "0.9.5" } }

/-- Reply `9` to comment `5`, path `0.9.5.9`; its id `9` already occurs at
path index 1. -/
def crQ : CommentResponse :=
  { CommentResponse.new with comment := { Comment.new with id := 9, path := "0.9.5.9" } }

/-- A default record with content "a" (all comparator inputs defaulted). -/
def crTieA : CommentResponse :=
  { CommentResponse.new with comment := { Comment.new with content := "a" } }

/-- A default record with content "b": ties with `crTieA` under the comparator
but differs from it. -/
def crTieB : CommentResponse :=
  { CommentResponse.new with comment := { Comment.new with content := "b" } }

/-- An empty table with a stale selection. -/
def emptyTblSel : CommentResponseTable :=
  { items := [], comment_id := 0, page := 1, level := 0,
    state := { offset := 0, selected := some 0 } }

/-- An empty table with no selection. -/
def emptyTblNoSel : CommentResponseTable :=
  { items := [], comment_id := 0, page := 1, level := 0,
    state := TableState.default }

/-- An empty comment list with no selection. -/
def emptyCmtList : CommentList :=
  { items := [], state := ListState.default }

/-- Root-level table focused on nothing, with the depth-1 reply `crB6`
selected. -/
def t4cex : CommentResponseTable :=
  { items := [crB6], comment_id := 0, page := 1, level := 0,
    state := { offset := 0, selected := some 0 } }

/-- Table whose focal comment id is `6` (the id of `crB6`). -/
def t7 : CommentResponseTable :=
  { items := [crB6], comment_id := 6, page := 1, level := 0,
    state := TableState.default }

/-- Three-item table with the cursor on the last index. -/
def w8a : CommentResponseTable :=
  { items := [CommentResponse.new, CommentResponse.new, CommentResponse.new],
    comment_id := 0, page := 1, level := 0,
    state := { offset := 0, selected := some 2 } }

/-- Three-item table with the cursor on the first index. -/
def w8b : CommentResponseTable :=
  { items := [CommentResponse.new, CommentResponse.new, CommentResponse.new],
    comment_id := 0, page := 1, level := 0,
    state := { offset := 0, selected := some 0 } }

/-- One-item table with the cursor on index 0. -/
def w10 : CommentResponseTable :=
  { items := [CommentResponse.new], comment_id := 0, page := 1, level := 0,
    state := { offset := 0, selected := some 0 } }

/-! ## Claim C1 -/

/-- C1, counterexample: both records are well-formed in the claim's sense
(numeric segments, last segment equals the id), `crP`'s path is a strict
prefix of `crQ`'s at a dot boundary, yet `sort_comments` places the
descendant `crQ` first: `crQ`'s id `9` already occurs at path index 1, which
derails the comparator's `position` computation. -/
theorem sort_ancestor_before_descendant_cex :
    pathWF crP ∧ pathWF crQ ∧
    crQ.comment.path.data = crP.comment.path.data ++ '.' :: ['9'] ∧
    sort_comments [crP, crQ] = [crQ, crP] := by
  refine ⟨by decide, by decide, by decide, by decide⟩

/-- C1, amended: for every collection of records whose ancestry paths are
well-formed (dot-separated numeric segments whose last segment equals the
record's id) *and whose id does not also occur at an earlier path position*,
after `sort_comments` every record whose path strictly prefix-extends
another's (at a dot boundary) appears at a strictly later position. -/
theorem sort_ancestor_before_descendant_amended
    (l : List CommentResponse)
    (hwf : ∀ r ∈ l, pathWF r ∧ idFirstAtLast r)
    (i j : Nat) (hi : i < (sort_comments l).length) (hj : j < (sort_comments l).length)
    (rest : List Char)
    (hext : ((sort_comments l).get ⟨j, hj⟩).comment.path.data =
      ((sort_comments l).get ⟨i, hi⟩).comment.path.data ++ '.' :: rest) :
    i < j := by
  have hsorted : List.Sorted leR (sort_comments l) :=
    List.sorted_insertionSort leR l
  have hperm : (sort_comments l).Perm l := List.perm_insertionSort leR l
  have hmemA : (sort_comments l).get ⟨i, hi⟩ ∈ l :=
    hperm.subset (List.get_mem _ _ _)
  have hmemB : (sort_comments l).get ⟨j, hj⟩ ∈ l :=
    hperm.subset (List.get_mem _ _ _)
  have hAB : cmpCR ((sort_comments l).get ⟨i, hi⟩)
      ((sort_comments l).get ⟨j, hj⟩) = .lt :=
    cmpCR_lt_of_path_extension
      (posOf_of_idFirstAtLast (hwf _ hmemA).2)
      (posOf_of_idFirstAtLast (hwf _ hmemB).2)
      rest hext
  by_contra hij
  push_neg at hij
  rcases Nat.lt_or_ge j i with hlt | hge
  · have hle : leR ((sort_comments l).get ⟨j, hj⟩) ((sort_comments l).get ⟨i, hi⟩) :=
      hsorted.rel_get_of_lt (show (⟨j, hj⟩ : Fin _) < ⟨i, hi⟩ from hlt)
    unfold leR at hle
    rw [cmpCR_swap, hAB] at hle
    exact hle rfl
  · have heq : i = j := by omega
    subst heq
    have hlen := congrArg List.length hext
    rw [List.length_append, List.length_cons] at hlen
    omega

theorem sort_ancestor_before_descendant_amended_witness : (0 : Nat) < 1 :=
  sort_ancestor_before_descendant_amended [crB6, crA5] (by decide) 0 1
    (by decide) (by decide) ['6'] (by decide)

/-! ## Claim C2 -/

/-- C2, counterexample: `crTieA` and `crTieB` differ only in a field the
comparator never reads (`content`), so they tie; the stable sort preserves
their input order, and the two permutations of the same two-element
collection sort to different sequences. -/
theorem sort_permutation_determinism_cex :
    [crTieA, crTieB].Perm [crTieB, crTieA] ∧
    sort_comments [crTieB, crTieA] ≠ sort_comments [crTieA, crTieB] :=
  ⟨List.Perm.swap crTieB crTieA [], by decide⟩

/-- C2, amended: sorting any permutation of a collection yields the same
output sequence *provided no two distinct records of the collection tie
under the comparator* (records that differ only in fields the comparator
ignores may come out in either order). -/
theorem sort_permutation_determinism_amended
    (l l' : List CommentResponse) (hperm : l.Perm l')
    (hnotie : ∀ a ∈ l, ∀ b ∈ l, cmpCR a b = .eq → a = b) :
    sort_comments l' = sort_comments l := by
  apply sorted_perm_unique
  · exact (List.perm_insertionSort leR l').trans
      (hperm.symm.trans (List.perm_insertionSort leR l).symm)
  · exact List.sorted_insertionSort leR l'
  · exact List.sorted_insertionSort leR l
  · intro a ha b hb hab
    have ha2 : a ∈ l := hperm.mem_iff.mpr ((List.perm_insertionSort leR l').subset ha)
    have hb2 : b ∈ l := hperm.mem_iff.mpr ((List.perm_insertionSort leR l').subset hb)
    exact hnotie a ha2 b hb2 hab

theorem sort_permutation_determinism_amended_witness :
    sort_comments [crB6, crA5] = sort_comments [crA5, crB6] :=
  sort_permutation_determinism_amended [crA5, crB6] [crB6, crA5]
    (List.Perm.swap crB6 crA5 []) (by decide)

/-! ## Claim C3 -/

/-- C3 (refuting theorem): on an empty `items` collection, `next` with a
selection divides by zero (`(i + 1) % 0`, modelled as `none`); `next`
without a selection is not a no-op either (it selects index 0); and
`CommentList::previous` underflows `len - 1` (modelled as `none`). -/
theorem next_empty_items_panics :
    CommentResponseTable.next emptyTblSel = none ∧
    (CommentResponseTable.next emptyTblNoSel).map (fun t => t.state.selected) =
      some (some 0) ∧
    CommentList.previous emptyCmtList = none :=
  ⟨rfl, rfl, rfl⟩

/-! ## Claim C4 -/

/-- C4, counterexample: from the root state (`level = 0`, `comment_id = 0`)
with the depth-1 reply `crB6` (path `0.5.6`) selected, `enter_child` then
`go_to_parent` ends with `comment_id = 5`, not the original 0: `go_to_parent`
reads the path segment at the *already decremented* level. -/
theorem enter_exit_round_trip_cex :
    t4cex.current = some crB6 ∧
    ¬((t4cex.enter_child.go_to_parent).comment_id = t4cex.comment_id ∧
      (t4cex.enter_child.go_to_parent).level = t4cex.level) := by
  refine ⟨rfl, by decide⟩

/-- C4, amended: `enter_child` followed by `go_to_parent` always restores the
`current_level` that held before entering; the focal `comment_id` is in
general *not* restored. -/
theorem enter_exit_restores_level (t : CommentResponseTable) :
    (t.enter_child.go_to_parent).level = t.level := by
  simp [CommentResponseTable.enter_child, CommentResponseTable.go_to_parent,
    CommentResponseTable.next_level]

/-! ## Claim C5 -/

/-- C5: the fetch loop requests exactly `ceil(n / 50)` pages, numbered
`1, 2, ..., ceil(n / 50)` in increasing order (`List.range' 1 m` is exactly
that sequence), with 3 pages for a count of 125, and the merged collection
concatenates the fetched pages in that order. -/
theorem page_fetch_plan_spec :
    (∀ n : Nat, pagesRequested n = List.range' 1 ((n + 49) / 50)) ∧
    pagesRequested 125 = [1, 2, 3] ∧
    (∀ (fetch : Nat → List CommentResponse) (n : Nat),
      fetchMerged fetch n = ((pagesRequested n).map fetch).join) := by
  refine ⟨?_, by decide, fun fetch n => rfl⟩
  intro n
  have hmap : (List.range (n / 50)).map (fun page => page + 1) =
      List.range' 1 (n / 50) := by
    rw [List.range'_eq_map_range]
    simp [Nat.add_comm]
  by_cases h : n % 50 = 0
  · have h49 : (n + 49) / 50 = n / 50 := by omega
    rw [pagesRequested, if_neg (by omega), h49, hmap, List.append_nil]
  · have h49 : (n + 49) / 50 = n / 50 + 1 := by omega
    rw [pagesRequested, if_pos (by omega), h49, List.range'_concat, hmap]
    simp [Nat.add_comm]

/-! ## Claim C6 -/

/-- C6, counterexample: `"a.b.c.d"` is malformed (no segment parses as a
number), yet its derived depth is 2, not 0 — the code counts segments
without parsing them. -/
theorem depth_malformed_cex :
    ((splitOnChar '.' ("a.b.c.d" : String).data).all
      (fun seg => parseU64 seg == none)) = true ∧
    depthOf "a.b.c.d" = 2 := by
  refine ⟨by decide, by decide⟩

/-- C6, amended: the derived depth is always the number of dot-separated
segments minus 2 (saturating at 0) — equivalently the number of dots minus
1 — regardless of whether segments are numeric; it is 2 for `"0.5.9.14"`,
0 for `"0.5"` and 0 for `""` (one segment), but a malformed input with `k`
segments yields `k - 2`, not necessarily 0. -/
theorem depth_segments_amended :
    (∀ path : String, depthOf path = (splitOnChar '.' path.data).length - 2) ∧
    (∀ path : String,
      depthOf path = path.data.countP (fun ch => ch = '.') + 1 - 2) ∧
    depthOf "0.5.9.14" = 2 ∧ depthOf "0.5" = 0 ∧ depthOf "" = 0 := by
  refine ⟨fun _ => rfl, fun path => ?_, by decide, by decide, by decide⟩
  rw [depthOf, splitOnChar_length]

/-! ## Claim C7 -/

/-- C7: `parent_id` returns the parsed value of the path segment at index
`level + 1` of the first item whose comment id equals `comment_id`, and the
sentinel 0 when no such item exists, the index is out of range, or the
segment does not parse; it is a total function. -/
theorem parent_id_spec (t : CommentResponseTable) :
    (t.items.find? (fun c => c.comment.id == t.comment_id) = none →
      t.parent_id = 0) ∧
    (∀ c, t.items.find? (fun c => c.comment.id == t.comment_id) = some c →
      (((splitOnChar '.' c.comment.path.data).get? (t.level + 1) = none →
          t.parent_id = 0) ∧
        (∀ seg, (splitOnChar '.' c.comment.path.data).get? (t.level + 1) = some seg →
          ((parseU64 seg = none → t.parent_id = 0) ∧
            (∀ v, parseU64 seg = some v → t.parent_id = v))))) := by
  constructor
  · intro h
    unfold CommentResponseTable.parent_id
    rw [h]
    rfl
  · intro c hc
    constructor
    · intro hseg
      unfold CommentResponseTable.parent_id
      rw [hc]
      simp only [Option.map_some', Option.getD_some]
      rw [hseg]
      rfl
    · intro seg hseg
      constructor
      · intro hp
        unfold CommentResponseTable.parent_id
        rw [hc]
        simp only [Option.map_some', Option.getD_some]
        rw [hseg]
        simp only [Option.getD_some]
        rw [hp]
        rfl
      · intro v hv
        unfold CommentResponseTable.parent_id
        rw [hc]
        simp only [Option.map_some', Option.getD_some]
        rw [hseg]
        simp only [Option.getD_some]
        rw [hv]
        rfl

theorem parent_id_spec_witness : t7.parent_id = 5 :=
  (((parent_id_spec t7).2 crB6 (by decide)).2 ['5'] (by decide)).2 5 (by decide)

/-! ## Claim C8 -/

/-- C8: on a 3-item collection, `next` from cursor 2 wraps to 0 and
`previous` from cursor 0 wraps to 2. -/
theorem wraparound_selection_spec (t : CommentResponseTable)
    (h3 : t.items.length = 3) :
    (t.state.selected = some 2 →
      (t.next).map (fun s => s.state.selected) = some (some 0)) ∧
    (t.state.selected = some 0 → (t.previous).state.selected = some 2) := by
  constructor
  · intro h2
    simp [CommentResponseTable.next, h2, h3, TableState.select]
  · intro h0
    simp [CommentResponseTable.previous, h0, h3, TableState.select]

theorem wraparound_selection_spec_witness :
    ((w8a.next).map (fun s => s.state.selected) = some (some 0)) ∧
    (w8b.previous).state.selected = some 2 :=
  ⟨(wraparound_selection_spec w8a rfl).1 rfl,
    (wraparound_selection_spec w8b rfl).2 rfl⟩

/-! ## Claim C9 -/

/-- C9: `sort_comments` only reorders: its output is a permutation of its
input, so the multiset of records (every field included) is unchanged. -/
theorem sort_comments_preserves_items (l : List CommentResponse) :
    (sort_comments l).Perm l :=
  List.perm_insertionSort leR l

/-! ## Claim C10 -/

/-- C10: `current` returns `none` with no selection, the record at the
selected index when it is in bounds, and `none` (no panic) when the stored
index is out of bounds. -/
theorem current_spec (t : CommentResponseTable) (i : Nat) :
    (t.state.selected = none → t.current = none) ∧
    (t.state.selected = some i → t.items.length ≤ i → t.current = none) ∧
    (t.state.selected = some i → ∀ h : i < t.items.length,
      t.current = some (t.items.get ⟨i, h⟩)) := by
  refine ⟨fun hsel => ?_, fun hsel hlen => ?_, fun hsel h => ?_⟩
  · unfold CommentResponseTable.current
    rw [hsel]
  · unfold CommentResponseTable.current
    rw [hsel]
    exact List.get?_eq_none.mpr hlen
  · unfold CommentResponseTable.current
    rw [hsel]
    exact List.get?_eq_get h

theorem current_spec_witness : w10.current = some CommentResponse.new := by
  have h := (current_spec w10 0).2.2 rfl (by decide)
  simpa using h
